import Mathlib

/-!
Verification development for the Scheduler_Application repository.

The definitions below are shallow embeddings of the scheduling logic of the
repository (frontend calendar pages, post editor, API client and, where a
backend routine is not part of the source tree, a model built from the
specification; each such model is marked `Modelled from the spec:` in its
doc comment).  Times of day are minutes past midnight, instants are integer
timestamps (milliseconds since the epoch in the source), and machine
numbers are modelled with `Int`/`Nat` since the JavaScript source only uses
integral values in the embedded code paths.
-/

namespace Scheduler

/-! ## Spacing constant (PostEditor.jsx line 15, Calendar.jssx line 152) -/

/-- `MIN_SPACING = 15` minutes, shared by PostEditor.jsx (`MIN_SPACING`) and
Calendar.jsx (`MIN_SPACING_MIN`). -/
def MIN_SPACING : Int := 15

/-! ## pickHumanMinute (PostEditor.jsx lines 61-95)

The JavaScript sorts the existing minutes, scans adjacent points of
`[dayStartMin, ...times, dayEndMin]` for the (first) largest gap, centres a
candidate in it, adds a jitter of `Math.floor(Math.random()*13)-6`, clamps
it to `[prev+15, next-15]`, and if the candidate is too close to an
existing time probes `candidate ± step` for `step = 1..60`.  The random
jitter is passed in as an explicit argument `jitter` here, so every theorem
below holds for every possible jitter value. -/

/-- Insertion of one element into a sorted list (ascending), used to model
JavaScript's numeric `sort((a, b) => a - b)`. -/
def insertSorted (x : Int) : List Int → List Int
  | [] => [x]
  | y :: ys => if x ≤ y then x :: y :: ys else y :: insertSorted x ys

/-- Ascending numeric sort, modelling `[...existingMins].sort((a, b) => a - b)`. -/
def sortInts (l : List Int) : List Int := l.foldr insertSorted []

/-- `ok(m)` of `pickHumanMinute`: `times.every((t) => Math.abs(t - m) >= MIN_SPACING)`. -/
def okSpaced (times : List Int) (m : Int) : Bool :=
  times.all (fun t => 15 ≤ (t - m).natAbs)

/-- The scan of `pts` for the first largest adjacent gap
(`for (let i = 0; i < pts.length - 1; i++) ...` with strict `gap > bestGap`). -/
def bestGapGo : List Int → Int → Int × Int → Int × Int
  | p1 :: p2 :: rest, bestGap, best =>
      if p2 - p1 > bestGap then bestGapGo (p2 :: rest) (p2 - p1) (p1, p2)
      else bestGapGo (p2 :: rest) bestGap best
  | _, _, best => best

/-- The probe loop `for (let step = 1; step <= 60; step++)`, trying
`candidate + step` then `candidate - step` at each step. -/
def trySteps (times : List Int) (candidate lower upper : Int) : List Int → Option Int
  | [] => none
  | s :: rest =>
      let fwd := candidate + s
      let back := candidate - s
      if fwd ≤ upper && okSpaced times fwd then some fwd
      else if lower ≤ back && okSpaced times back then some back
      else trySteps times candidate lower upper rest

/-- The step values `1..60` of the probe loop. -/
def steps60 : List Int := (List.range 60).map (fun k => (k : Int) + 1)

/-- `pickHumanMinute(existingMins, dayStartMin = 8*60, dayEndMin = 22*60+59)`
from PostEditor.jsx, with the random jitter made an explicit argument.  The
source's two window parameters always take their default values (the sole
call site passes only `existingSameDayMins`), so they are fixed here. -/
def pickHumanMinute (existingMins : List Int) (jitter : Int) : Option Int :=
  let dayStartMin : Int := 8 * 60
  let dayEndMin : Int := 22 * 60 + 59
  let times := sortInts existingMins
  let pts := dayStartMin :: times ++ [dayEndMin]
  let best := bestGapGo pts (-1) (dayStartMin, dayEndMin)
  let lower := best.1 + MIN_SPACING
  let upper := best.2 - MIN_SPACING
  if upper ≤ lower then none
  else
    let candidate0 := Int.fdiv (lower + upper) 2 + jitter
    let candidate := max lower (min upper candidate0)
    if okSpaced times candidate then some candidate
    else trySteps times candidate lower upper steps60

theorem mem_insertSorted {a x : Int} {l : List Int} :
    a ∈ insertSorted x l ↔ a = x ∨ a ∈ l := by
  induction l with
  | nil => simp [insertSorted]
  | cons y ys ih =>
      by_cases h : x ≤ y
      · simp [insertSorted, h]
      · simp [insertSorted, h, ih]
        tauto

theorem mem_sortInts {a : Int} {l : List Int} : a ∈ sortInts l ↔ a ∈ l := by
  induction l with
  | nil => simp [sortInts]
  | cons y ys ih =>
      simp only [sortInts, List.foldr] at *
      rw [mem_insertSorted, ih]
      simp

theorem okSpaced_spec {times : List Int} {m : Int} (h : okSpaced times m = true) :
    ∀ t ∈ times, 15 ≤ (t - m).natAbs := by
  intro t ht
  have := List.all_eq_true.mp h t ht
  simpa using this

theorem trySteps_spec {times : List Int} {c lo hi m : Int} :
    ∀ {l : List Int}, (∀ s ∈ l, 0 ≤ s) → lo ≤ c → c ≤ hi →
      trySteps times c lo hi l = some m →
      okSpaced times m = true ∧ lo ≤ m ∧ m ≤ hi := by
  intro l
  induction l with
  | nil => intro _ _ _ h; simp [trySteps] at h
  | cons s rest ih =>
      intro hs hlo hhi h
      have hs0 : 0 ≤ s := hs s (by simp)
      simp only [trySteps] at h
      split at h
      · rename_i hc
        simp only [Option.some.injEq] at h
        subst h
        obtain ⟨hb, ho⟩ := by simpa using hc
        exact ⟨ho, by omega, hb⟩
      · split at h
        · rename_i hc
          simp only [Option.some.injEq] at h
          subst h
          obtain ⟨hb, ho⟩ := by simpa using hc
          exact ⟨ho, hb, by omega⟩
        · exact ih (fun x hx => hs x (by simp [hx])) hlo hhi h

theorem steps60_nonneg : ∀ s ∈ steps60, 0 ≤ s := by decide

theorem bestGapGo_mem {P : List Int} :
    ∀ (l : List Int) (g : Int) (b : Int × Int), (∀ x ∈ l, x ∈ P) →
      b.1 ∈ P → b.2 ∈ P → (bestGapGo l g b).1 ∈ P ∧ (bestGapGo l g b).2 ∈ P := by
  intro l
  induction l with
  | nil => intro g b _ h1 h2; exact ⟨h1, h2⟩
  | cons x xs ih =>
      intro g b hl h1 h2
      cases xs with
      | nil => exact ⟨h1, h2⟩
      | cons y rest =>
          simp only [bestGapGo]
          have hx : x ∈ P := hl x (by simp)
          have hy : y ∈ P := hl y (by simp)
          have hsub : ∀ z ∈ y :: rest, z ∈ P := fun z hz => hl z (by simp at hz ⊢; tauto)
          split
          · exact ih (y - x) (x, y) hsub hx hy
          · exact ih g b hsub h1 h2

/-- Claim C10: `pickHumanMinute` returns `none` or a minute at distance ≥ 15 from
every input time; when every input lies in the 08:00-22:59 window
(480..1379 minutes), a non-`none` result also lies in that window.  Proved
for every jitter value. -/
theorem pickHumanMinute_spaced_and_in_window (existingMins : List Int) (jitter m : Int)
    (h : pickHumanMinute existingMins jitter = some m) :
    (∀ t ∈ existingMins, 15 ≤ (t - m).natAbs) ∧
    ((∀ t ∈ existingMins, 480 ≤ t ∧ t ≤ 1379) → 480 ≤ m ∧ m ≤ 1379) := by
  simp only [pickHumanMinute, MIN_SPACING] at h
  split at h
  · simp at h
  · rename_i hul
    set times := sortInts existingMins with htimes
    set pts : List Int := (8 * 60 : Int) :: times ++ [(22 * 60 + 59 : Int)] with hpts
    set best := bestGapGo pts (-1) (8 * 60, 22 * 60 + 59) with hbest
    have hmem : best.1 ∈ pts ∧ best.2 ∈ pts := by
      refine bestGapGo_mem pts (-1) (8 * 60, 22 * 60 + 59) (fun x hx => hx) ?_ ?_
      · simp [hpts]
      · simp [hpts]
    have hok : okSpaced times m = true ∧ best.1 + 15 ≤ m ∧ m ≤ best.2 - 15 := by
      set c0 := Int.fdiv (best.1 + 15 + (best.2 - 15)) 2 + jitter with hc0
      set cand := max (best.1 + 15) (min (best.2 - 15) c0) with hcand
      have hcl : best.1 + 15 ≤ cand := le_max_left _ _
      have hcu : cand ≤ best.2 - 15 := by
        have h1 : ¬ (best.2 - 15 ≤ best.1 + 15) := hul
        have h2 : min (best.2 - 15) c0 ≤ best.2 - 15 := min_le_left _ _
        omega
      split at h
      · rename_i hco
        simp only [Option.some.injEq] at h
        subst h
        exact ⟨hco, hcl, hcu⟩
      · exact trySteps_spec steps60_nonneg hcl hcu h
    obtain ⟨hsp, hlo, hhi⟩ := hok
    constructor
    · intro t ht
      exact okSpaced_spec hsp t (mem_sortInts.mpr ht)
    · intro hwin
      have hin : ∀ x ∈ pts, 480 ≤ x ∧ x ≤ 1379 := by
        intro x hx
        rw [hpts] at hx
        simp only [List.mem_cons, List.mem_append, List.mem_singleton] at hx
        rcases hx with (rfl | hx) | (rfl | hx)
        · omega
        · exact hwin x (mem_sortInts.mp hx)
        · omega
        · simp at hx
      have h1 := hin best.1 hmem.1
      have h2 := hin best.2 hmem.2
      omega

/-- Witness for `pickHumanMinute_spaced_and_in_window` at the concrete input
`existingMins = [600]`, `jitter = 0`, where the pick returns `989`. -/
theorem pickHumanMinute_spaced_and_in_window_witness :
    (15 ≤ ((600 : Int) - 989).natAbs) ∧ (480 ≤ (989 : Int) ∧ (989 : Int) ≤ 1379) := by
  have h := pickHumanMinute_spaced_and_in_window [600] 0 989 (by decide)
  exact ⟨h.1 600 (by simp), h.2 (by intro t ht; simp at ht; omega)⟩

/-! ## Caption extraction (PostEditor.jsx lines 98-107, ReplacePostDialog.jsx lines 119-128)

`extractCaptionFromString(s)` first replaces `s` by `new URL(s).pathname`
when `s` parses as an absolute URL (keeping `s` when the constructor
throws), then percent-decodes the result with `decodeURIComponent` (keeping
it undecoded when that throws), then takes the last path component (split
on `/` and `\`, with `pop() || s` falling back to the whole string when the
last component is empty), and matches the JavaScript regular expression
`/\*{5}([^*]{1,200})\*{5}/` against it, returning the first captured group
or `null`.  The two browser builtins are modelled below: the URL model
covers the conventional absolute forms `scheme://authority/path?query` and
opaque `scheme:path?query` and throws on scheme-less strings; the decode
model implements the ECMAScript algorithm (hex escapes assembled as
shortest-form UTF-8, invalid sequences throw). -/

/-- Five asterisks, the delimiter of the caption pattern. -/
def stars5 : List Char := ['*', '*', '*', '*', '*']

/-- The character class `[^*]` of the caption regular expression. -/
def notStar (c : Char) : Bool := c != '*'

/-- One attempted match of `/\*{5}([^*]{1,200})\*{5}/` anchored at the head
of `cs`: five stars, then the maximal run of 1..200 non-star characters,
then five stars again.  (With a backtracking engine a shorter group can
never succeed here, because every shorter group is followed by a non-star
character where `\*{5}` would have to match.) -/
def matchCaptionAt (cs : List Char) : Option (List Char) :=
  if cs.take 5 = stars5 then
    if 1 ≤ ((cs.drop 5).takeWhile notStar).length ∧
        ((cs.drop 5).takeWhile notStar).length ≤ 200 ∧
        ((cs.drop 5).drop ((cs.drop 5).takeWhile notStar).length).take 5 = stars5 then
      some ((cs.drop 5).takeWhile notStar)
    else none
  else none

/-- The regex engine's scan: try `matchCaptionAt` at every start position,
left to right, and return the first successful group. -/
def findCaptionAux : List Char → Option (List Char)
  | [] => none
  | c :: cs =>
      match matchCaptionAt (c :: cs) with
      | some r => some r
      | none => findCaptionAux cs

/-- JavaScript `String(s).split(/[\\/]/)`: split on `/` and `\`,
keeping empty segments. -/
def splitSegs : List Char → List (List Char)
  | [] => [[]]
  | c :: cs =>
      let rest := splitSegs cs
      if c = '/' ∨ c = '\\' then [] :: rest
      else
        match rest with
        | [] => [[c]]
        | seg :: segs => (c :: seg) :: segs

/-- `String(s).split(/[\\/]/).pop() || s`: the last path component, or the
whole string when the last component is empty (JavaScript `||` on the empty
string). -/
def lastSegment (cs : List Char) : List Char :=
  match (splitSegs cs).getLast? with
  | some seg => if seg = [] then cs else seg
  | none => cs

/-- An ASCII letter, the first character of a URL scheme. -/
def isAlpha (c : Char) : Bool :=
  (97 ≤ c.toNat && c.toNat ≤ 122) || (65 ≤ c.toNat && c.toNat ≤ 90)

/-- A non-initial URL scheme character (letter, digit, `+`, `-` or `.`). -/
def isSchemeChar (c : Char) : Bool :=
  isAlpha c || ('0' ≤ c && c ≤ '9') || c = '+' || c = '-' || c = '.'

/-- After a valid first scheme letter: consume scheme characters up to the
`:`; `none` when the string is not of the form `scheme:rest`. -/
def dropSchemeAux : List Char → Option (List Char)
  | [] => none
  | c :: cs => if c = ':' then some cs else if isSchemeChar c then dropSchemeAux cs else none

/-- Strip a leading `scheme:`; `none` (the `new URL` constructor throws)
when there is none. -/
def dropScheme : List Char → Option (List Char)
  | [] => none
  | c :: cs => if isAlpha c then dropSchemeAux cs else none

/-- A character that ends the URL path: the query `?` or fragment `#`
delimiter. -/
def isPathEnd (c : Char) : Bool := c = '?' || c = '#'

/-- The path part: everything before the first `?` or `#`. -/
def takeUntilQuery (cs : List Char) : List Char :=
  cs.takeWhile (fun c => !(isPathEnd c))

/-- `pathname` of the part after `scheme:`: for `//authority/path` forms
drop the authority and keep `/path` up to the query (just `/` when the
authority has no path); otherwise the opaque path up to the query. -/
def pathnameAfterScheme (rest : List Char) : List Char :=
  match rest with
  | '/' :: '/' :: r =>
      match r.dropWhile (fun c => !(c = '/' || isPathEnd c)) with
      | '/' :: tail => '/' :: takeUntilQuery tail
      | _ => ['/']
  | _ => takeUntilQuery rest

/-- Model of `new URL(s).pathname` for the conventional absolute URL forms
`scheme://authority/path?query#fragment` and `scheme:opaque?query`;
`none` models the constructor throwing on scheme-less strings, upon which
the source keeps `s` unchanged.  (The parser's percent-encoding
normalisation of raw disallowed characters is not modelled; the subsequent
decode step makes it immaterial to the extraction result.) -/
def urlPathname (cs : List Char) : Option (List Char) :=
  (dropScheme cs).map pathnameAfterScheme

/-- The numeric value of a hexadecimal digit, by ASCII code: digits are
codes 48-57, lowercase `a`-`f` codes 97-102, uppercase `A`-`F` codes
65-70. -/
def hexVal (c : Char) : Option Nat :=
  if 48 ≤ c.toNat && c.toNat ≤ 57 then some (c.toNat - 48)
  else if 97 ≤ c.toNat && c.toNat ≤ 102 then some (c.toNat - 87)
  else if 65 ≤ c.toNat && c.toNat ≤ 70 then some (c.toNat - 55)
  else none

/-- Tokenise for `decodeURIComponent`: each `%XY` hex escape becomes a byte
token, every other character passes through; `none` (the decode throws) on
a `%` not followed by two hex digits. -/
def pctTokens : List Char → Option (List (Sum Char Nat))
  | [] => some []
  | '%' :: a :: b :: rest =>
      match hexVal a, hexVal b with
      | some ha, some hb => (pctTokens rest).map (fun t => .inr (16 * ha + hb) :: t)
      | _, _ => none
  | '%' :: _ => none
  | c :: rest => (pctTokens rest).map (fun t => .inl c :: t)

/-- Assemble the byte tokens as shortest-form UTF-8, as the ECMAScript
decode algorithm does: `pending` continuation bytes are still expected for
the code point accumulated in `acc`, which must reach at least `minCp` (the
shortest-form bound); surrogates and values beyond U+10FFFF throw
(`none`). -/
def utf8Go : Nat → Nat → Nat → List (Sum Char Nat) → Option (List Char)
  | 0, _, _, [] => some []
  | 0, _, _, .inl c :: rest => (utf8Go 0 0 0 rest).map (fun t => c :: t)
  | 0, _, _, .inr b :: rest =>
      if b < 0x80 then (utf8Go 0 0 0 rest).map (fun t => Char.ofNat b :: t)
      else if 0xC2 ≤ b ∧ b ≤ 0xDF then utf8Go 1 (b % 0x20) 0x80 rest
      else if 0xE0 ≤ b ∧ b ≤ 0xEF then utf8Go 2 (b % 0x10) 0x800 rest
      else if 0xF0 ≤ b ∧ b ≤ 0xF4 then utf8Go 3 (b % 8) 0x10000 rest
      else none
  | _ + 1, _, _, [] => none
  | _ + 1, _, _, .inl _ :: _ => none
  | pending + 1, acc, minCp, .inr b :: rest =>
      if 0x80 ≤ b ∧ b ≤ 0xBF then
        match pending with
        | 0 =>
            if minCp ≤ acc * 0x40 + b % 0x40 ∧ acc * 0x40 + b % 0x40 ≤ 0x10FFFF ∧
                ¬(0xD800 ≤ acc * 0x40 + b % 0x40 ∧ acc * 0x40 + b % 0x40 ≤ 0xDFFF) then
              (utf8Go 0 0 0 rest).map (fun t => Char.ofNat (acc * 0x40 + b % 0x40) :: t)
            else none
        | p + 1 => utf8Go (p + 1) (acc * 0x40 + b % 0x40) minCp rest
      else none

/-- Model of `decodeURIComponent`: `none` models a throw, upon which the
source keeps the undecoded string. -/
def percentDecode (cs : List Char) : Option (List Char) :=
  (pctTokens cs).bind (utf8Go 0 0 0)

/-- The string the caption regular expression actually runs on: `s` after
`try (s = new URL(s).pathname) catch` and then
`try (s = decodeURIComponent(s)) catch`, in source order. -/
def effectiveChars (cs : List Char) : List Char :=
  match percentDecode (match urlPathname cs with
    | some p => p
    | none => cs) with
  | some d => d
  | none =>
      match urlPathname cs with
      | some p => p
      | none => cs

/-- `extractCaptionFromString` from PostEditor.jsx / ReplacePostDialog.jsx:
`null` for falsy input, otherwise the first caption group found in the
last path component of the decoded URL path. -/
def extractCaptionFromString (s : String) : Option String :=
  if s.data = [] then none
  else (findCaptionAux (lastSegment (effectiveChars s.data))).map String.mk

/-- `caption: input.caption ?? ""` of `mapEditorPayloadToPostCreate`
(PostsClient.js line 98): the update payload always carries a caption. -/
def mapCaption (c : Option String) : String := c.getD ""

/-- The caption `doReplace` ends up writing for one post: its payload is
`cap ? (media_url, caption: cap) : (media_url)`, but `updatePost` maps it
through `mapEditorPayloadToPostCreate`, which always emits
`caption: input.caption ?? ""` — both in the PUT body and in the
delete-then-create fallback — so the stored caption becomes the extracted
caption or the empty string, never the previous value. -/
def replacedCaption (url : String) : String :=
  mapCaption (extractCaptionFromString url)

theorem takeWhile_mem_sat {p : Char → Bool} :
    ∀ {l : List Char} {c : Char}, c ∈ l.takeWhile p → p c = true := by
  intro l
  induction l with
  | nil => intro c hc; simp [List.takeWhile] at hc
  | cons x xs ih =>
      intro c hc
      simp only [List.takeWhile] at hc
      by_cases hx : p x = true
      · rw [hx] at hc
        simp only [List.mem_cons] at hc
        rcases hc with rfl | hc
        · exact hx
        · exact ih hc
      · rw [Bool.not_eq_true] at hx
        rw [hx] at hc
        simp at hc

theorem takeWhile_all_append {p : Char → Bool} (text rest : List Char)
    (htext : ∀ c ∈ text, p c = true) (hrest : ∀ d l, rest = d :: l → p d = false) :
    (text ++ rest).takeWhile p = text := by
  induction text with
  | nil =>
      cases rest with
      | nil => simp [List.takeWhile]
      | cons d l => simp [List.takeWhile, hrest d l rfl]
  | cons x xs ih =>
      simp only [List.cons_append, List.takeWhile, htext x (by simp)]
      exact congrArg (x :: ·) (ih (fun c hc => htext c (by simp [hc])))

theorem matchCaptionAt_pattern (text suf : List Char)
    (htext : ∀ c ∈ text, c ≠ '*') (h1 : 1 ≤ text.length) (h2 : text.length ≤ 200) :
    matchCaptionAt (stars5 ++ text ++ stars5 ++ suf) = some text := by
  have htake : (stars5 ++ (text ++ stars5 ++ suf)).take 5 = stars5 :=
    List.take_left stars5 (text ++ stars5 ++ suf)
  have hdrop : (stars5 ++ (text ++ stars5 ++ suf)).drop 5 = text ++ stars5 ++ suf :=
    List.drop_left stars5 (text ++ stars5 ++ suf)
  have hrun : (text ++ stars5 ++ suf).takeWhile notStar = text := by
    have : text ++ stars5 ++ suf = text ++ ('*' :: ('*' :: '*' :: '*' :: '*' :: suf)) := by
      simp [stars5]
    rw [this]
    refine takeWhile_all_append _ _ ?_ ?_
    · intro c hc
      simp [notStar, htext c hc]
    · intro d l hd
      cases hd
      simp [notStar]
  have hdrop2 : ((text ++ stars5 ++ suf).drop text.length).take 5 = stars5 := by
    have : text ++ stars5 ++ suf = text ++ (stars5 ++ suf) := by simp
    rw [this, List.drop_left text (stars5 ++ suf)]
    exact List.take_left stars5 suf
  have hassoc : stars5 ++ text ++ stars5 ++ suf = stars5 ++ (text ++ stars5 ++ suf) := by
    simp
  rw [hassoc]
  unfold matchCaptionAt
  rw [if_pos htake, hdrop, hrun]
  have hcond : 1 ≤ text.length ∧ text.length ≤ 200 ∧
      ((text ++ stars5 ++ suf).drop text.length).take 5 = stars5 := ⟨h1, h2, hdrop2⟩
  rw [if_pos hcond]

theorem matchCaptionAt_head_ne_star {c : Char} {cs : List Char} (hc : c ≠ '*') :
    matchCaptionAt (c :: cs) = none := by
  have hne : (c :: cs).take 5 ≠ stars5 := by
    intro h
    have : c = '*' := by
      have := congrArg (fun l => l.head?) h
      simpa [stars5, List.take] using this
    exact hc this
  unfold matchCaptionAt
  rw [if_neg hne]

theorem findCaptionAux_of_match {cs r : List Char} (h : matchCaptionAt cs = some r) :
    findCaptionAux cs = some r := by
  cases cs with
  | nil => simp [matchCaptionAt, stars5] at h
  | cons c cs =>
      simp only [findCaptionAux]
      rw [h]

theorem findCaptionAux_cons_of_none {c : Char} {cs : List Char}
    (h : matchCaptionAt (c :: cs) = none) :
    findCaptionAux (c :: cs) = findCaptionAux cs := by
  simp only [findCaptionAux]
  rw [h]

theorem findCaptionAux_pattern (pre text suf : List Char)
    (hpre : ∀ c ∈ pre, c ≠ '*') (htext : ∀ c ∈ text, c ≠ '*')
    (h1 : 1 ≤ text.length) (h2 : text.length ≤ 200) :
    findCaptionAux (pre ++ stars5 ++ text ++ stars5 ++ suf) = some text := by
  induction pre with
  | nil =>
      simp only [List.nil_append]
      exact findCaptionAux_of_match (matchCaptionAt_pattern text suf htext h1 h2)
  | cons x xs ih =>
      have hx : x ≠ '*' := hpre x (by simp)
      have hxs : ∀ c ∈ xs, c ≠ '*' := fun c hc => hpre c (by simp [hc])
      have he : (x :: xs) ++ stars5 ++ text ++ stars5 ++ suf =
          x :: (xs ++ stars5 ++ text ++ stars5 ++ suf) := by simp
      rw [he, findCaptionAux_cons_of_none (matchCaptionAt_head_ne_star hx)]
      exact ih hxs

theorem takeWhile_drop_decomp (p : Char → Bool) (l : List Char) :
    l = l.takeWhile p ++ l.drop (l.takeWhile p).length := by
  have h1 : l.takeWhile p ++ l.dropWhile p = l := List.takeWhile_append_dropWhile p l
  have h2 := List.drop_left (l.takeWhile p) (l.dropWhile p)
  rw [h1] at h2
  rw [h2]
  exact h1.symm

theorem matchCaptionAt_some {cs r : List Char} (h : matchCaptionAt cs = some r) :
    ∃ suf, cs = stars5 ++ r ++ stars5 ++ suf ∧ (∀ c ∈ r, c ≠ '*') ∧
      1 ≤ r.length ∧ r.length ≤ 200 := by
  simp only [matchCaptionAt] at h
  split at h
  · rename_i htake
    split at h
    · rename_i hcond
      simp only [Option.some.injEq] at h
      subst h
      obtain ⟨hc1, hc2, hc3⟩ := hcond
      set rest := cs.drop 5 with hrest
      set run := rest.takeWhile notStar with hrun
      refine ⟨(rest.drop run.length).drop 5, ?_, ?_, hc1, hc2⟩
      · calc cs = cs.take 5 ++ cs.drop 5 := (List.take_append_drop 5 cs).symm
          _ = stars5 ++ rest := by rw [htake, ← hrest]
          _ = stars5 ++ (run ++ rest.drop run.length) := by
                rw [← takeWhile_drop_decomp notStar rest]
          _ = stars5 ++ (run ++ ((rest.drop run.length).take 5 ++
                (rest.drop run.length).drop 5)) := by
                rw [List.take_append_drop 5 (rest.drop run.length)]
          _ = stars5 ++ (run ++ (stars5 ++ (rest.drop run.length).drop 5)) := by rw [hc3]
          _ = stars5 ++ run ++ stars5 ++ (rest.drop run.length).drop 5 := by simp
      · intro c hc
        have := takeWhile_mem_sat hc
        simpa [notStar] using this
    · exact absurd h (by simp)
  · exact absurd h (by simp)

theorem findCaptionAux_some :
    ∀ {cs r : List Char}, findCaptionAux cs = some r →
      ∃ pre suf, cs = pre ++ stars5 ++ r ++ stars5 ++ suf ∧ (∀ c ∈ r, c ≠ '*') ∧
        1 ≤ r.length ∧ r.length ≤ 200 := by
  intro cs
  induction cs with
  | nil => intro r h; simp [findCaptionAux] at h
  | cons c cs ih =>
      intro r h
      simp only [findCaptionAux] at h
      split at h
      · rename_i r0 hm
        simp only [Option.some.injEq] at h
        subst h
        obtain ⟨suf, he, hstar, h1, h2⟩ := matchCaptionAt_some hm
        exact ⟨[], suf, by simpa using he, hstar, h1, h2⟩
      · obtain ⟨pre, suf, he, hstar, h1, h2⟩ := ih h
        exact ⟨c :: pre, suf, by simp [he], hstar, h1, h2⟩

/-- Claim C5 (amended): the caption pattern is recognised in the *final
segment* of the percent-decoded URL pathname (query and fragment stripped),
not anywhere in the raw string; write `seg s` for
`lastSegment (effectiveChars s.data)`, the 3-step chain
`new URL(s).pathname` (falling back to `s` when the constructor throws),
`decodeURIComponent` (falling back on a URIError), `.split(/[\\/]/).pop()`.
(1) If `seg s` decomposes as `pre ++ ***** ++ text ++ ***** ++ suf` with
`pre` and `text` star-free and `1 ≤ |text| ≤ 200`, extraction yields
exactly `text`; (2) any extracted caption arises from such a decomposition
of `seg s`; (3) an extracted caption is exactly the caption the replace
update carries; and (4) when no caption is extracted the replace update
carries the *empty* caption — `mapEditorPayloadToPostCreate` always emits
`caption: input.caption ?? ""` — so the stored caption is overwritten, not
left unchanged. -/
theorem extractCaptionFromString_spec (s : String) :
    (∀ pre text suf : List Char,
      lastSegment (effectiveChars s.data) = pre ++ stars5 ++ text ++ stars5 ++ suf →
      (∀ c ∈ pre, c ≠ '*') → (∀ c ∈ text, c ≠ '*') →
      1 ≤ text.length → text.length ≤ 200 →
      extractCaptionFromString s = some (String.mk text)) ∧
    (∀ r : String, extractCaptionFromString s = some r →
      ∃ pre suf,
        lastSegment (effectiveChars s.data) = pre ++ stars5 ++ r.data ++ stars5 ++ suf ∧
        (∀ c ∈ r.data, c ≠ '*') ∧ 1 ≤ r.data.length ∧ r.data.length ≤ 200) ∧
    (∀ r : String, extractCaptionFromString s = some r → replacedCaption s = r) ∧
    (extractCaptionFromString s = none → replacedCaption s = "") := by
  refine ⟨?_, ?_, ?_, ?_⟩
  · intro pre text suf hseg hpre htext h1 h2
    have hsne : s.data ≠ [] := by
      intro h0
      rw [h0] at hseg
      have : lastSegment (effectiveChars []) = [] := by rfl
      rw [this] at hseg
      have := congrArg List.length hseg
      simp [stars5] at this
      omega
    simp only [extractCaptionFromString, if_neg hsne]
    rw [hseg, findCaptionAux_pattern pre text suf hpre htext h1 h2]
    rfl
  · intro r hr
    simp only [extractCaptionFromString] at hr
    split at hr
    · exact absurd hr (by simp)
    · simp only [Option.map_eq_some'] at hr
      obtain ⟨l, hl, rfl⟩ := hr
      obtain ⟨pre, suf, he, hstar, h1, h2⟩ := findCaptionAux_some hl
      exact ⟨pre, suf, he, hstar, h1, h2⟩
  · intro r hr
    simp [replacedCaption, mapCaption, hr]
  · intro h
    simp [replacedCaption, mapCaption, h]

/-- Witness for `extractCaptionFromString_spec` at
`s = "https://h/*****my%20cap*****.jpg?q=1"`: the URL pathname is taken
(the query is dropped), `%20` is percent-decoded to a space, and the
extraction yields `"my cap"`. -/
theorem extractCaptionFromString_spec_witness :
    extractCaptionFromString "https://h/*****my%20cap*****.jpg?q=1" =
      some "my cap" := by
  have h := (extractCaptionFromString_spec "https://h/*****my%20cap*****.jpg?q=1").1
    [] "my cap".data ".jpg".data (by decide) (by decide) (by decide) (by decide) (by decide)
  exact h

/-! ## Calendar post model (Calendar.jsx, PostEditor.jsx)

A post as seen by the calendar UI: `ymd` is `scheduled_at.slice(0, 10)`
(the calendar-date key the source groups by), `minute` the minute of day of
`scheduled_at`, `override` the `override_spacing` flag the post was created
with.  The store is the account-scoped `posts` list of Calendar.jsx (the
source filters the ranged posts by the selected account before every
operation modelled here); `accountId` is kept on each post and compared as
a string, exactly as `String(p.account_id) === String(selectedAccountId)`
does. -/

structure CalPost where
  id : Nat
  accountId : String
  ymd : String
  minute : Int
  status : String
  override : Bool
deriving DecidableEq, Repr

/-- A post whose `status` is not `failed` and not `cancelled`. -/
def nonTerminal (p : CalPost) : Bool :=
  !(p.status == "failed" || p.status == "cancelled")

/-- The filter of `existingSameDayMins` (PostEditor.jsx lines 150-156) and
`getTimesOnDay` (Calendar.jsx lines 163-167): same calendar date,
optionally excluding one post id.  The source does not re-filter by account
here because the store it operates on is already account-scoped. -/
def keepPost (ymd : String) (excl : Option Nat) (p : CalPost) : Bool :=
  p.ymd == ymd &&
    (match excl with
     | some i => p.id != i
     | none => true)

/-- The minutes of day of the posts kept by `keepPost`.  The source sorts
these; sorting is applied by the callers below via `sortInts`. -/
def sameDayMins (store : List CalPost) (ymd : String) (excl : Option Nat) : List Int :=
  (store.filter (keepPost ymd excl)).map (fun p => p.minute)

/-- `recomputeConflict` (PostEditor.jsx lines 167-179): the first existing
minute strictly closer than `MIN_SPACING` to the chosen minute, if any. -/
def findOffender (existing : List Int) (chosen : Int) : Option Int :=
  existing.find? (fun m => (m - chosen).natAbs < 15)

/-- Result of a create in the post editor. -/
inductive EditorCreateResult
  | spacingConflict (offender : Int)
  | created (store : List CalPost)
deriving DecidableEq, Repr

/-- The editor save path (PostEditor.jsx): `recomputeConflict` computes the
conflict against the same-day minutes of the account's posts; `handleSubmit`
returns early on a conflict and the Save button is disabled while
`hasConflict && !overrideSpacing`, so a save goes through exactly when there
is no offender or the override checkbox is ticked; `doSave` then posts the
payload with the `override_spacing` flag. -/
def editorCreate (store : List CalPost) (acct ymd : String) (minute : Int)
    (override : Bool) (newId : Nat) : EditorCreateResult :=
  match findOffender (sortInts (sameDayMins store ymd none)) minute with
  | some off =>
      if override then
        .created (store ++ [⟨newId, acct, ymd, minute, "scheduled", override⟩])
      else .spacingConflict off
  | none => .created (store ++ [⟨newId, acct, ymd, minute, "scheduled", override⟩])

/-- Result of `handleMovePost` (Calendar.jsx lines 316-338). -/
inductive MoveResult
  | notFound
  | capped
  | spacingConflict (otherTimes : List Int)
  | moved (store : List CalPost)
deriving DecidableEq, Repr

/-- `handleMovePost`: find the post, refuse when the target date already
holds 15 other posts, open the move dialog (carrying the neighbor times)
when the post's time of day is within 15 minutes of a post on the target
date, otherwise rewrite the post's date keeping its time of day. -/
def movePost (store : List CalPost) (postId : Nat) (targetYmd : String) : MoveResult :=
  match store.find? (fun p => p.id == postId) with
  | none => .notFound
  | some post =>
      if 15 ≤ (store.filter (fun p =>
          p.ymd == targetYmd && p.id != post.id)).length then .capped
      else
        if (sortInts (sameDayMins store targetYmd (some post.id))).any
            (fun t => (t - post.minute).natAbs < 15) then
          .spacingConflict (sortInts (sameDayMins store targetYmd (some post.id)))
        else
          .moved (store.map (fun p =>
            if p.id == postId then { p with ymd := targetYmd } else p))

/-- `handleMoveSelection` (Calendar.jsx lines 390-411) with the end state of
`processNextMultiMove`: refuse when existing posts on the target date plus
the selected posts moving in would exceed 15; otherwise every selected post
of the account ends up on the target date. -/
def multiMove (store : List CalPost) (ids : List Nat)
    (targetYmd : String) : Option (List CalPost) :=
  if 15 < (store.filter (fun p => p.ymd == targetYmd)).length +
      ((store.filter (fun p => ids.contains p.id)).filter
        (fun p => p.ymd != targetYmd)).length then none
  else some (store.map (fun p =>
    if ids.contains p.id then { p with ymd := targetYmd } else p))

/-- `exceedsCap` (Calendar.jsx lines 472-481): the number of store posts on
the target date (the store being account-scoped in the source). -/
def dayTotal (store : List CalPost) (ymd : String) : Nat :=
  (store.filter (fun p => p.ymd == ymd)).length

/-- The number of an account's posts on a date, any status. -/
def dayTotalAcct (store : List CalPost) (acct ymd : String) : Nat :=
  (store.filter (fun p => p.accountId == acct && p.ymd == ymd)).length

/-- The create of Calendar.jsx `onSave` (lines 490-515): blocked by
`exceedsCap`, otherwise a new `scheduled` post without override. -/
def calOnSaveCreate (store : List CalPost) (acct ymd : String) (minute : Int)
    (newId : Nat) : Option (List CalPost) :=
  if 15 ≤ dayTotal store ymd then none
  else some (store ++ [⟨newId, acct, ymd, minute, "scheduled", false⟩])

/-- Claim C1's invariant: two distinct posts of the same account on the same
calendar date, both non-terminal and both created without
`override_spacing`, are at least 15 minutes apart. -/
def spacingInv (store : List CalPost) : Prop :=
  ∀ p ∈ store, ∀ q ∈ store, p.id ≠ q.id → p.accountId = q.accountId → p.ymd = q.ymd →
    nonTerminal p = true → nonTerminal q = true →
    p.override = false → q.override = false → 15 ≤ (p.minute - q.minute).natAbs

/-- The number of non-terminal, non-override posts of an account on a date. -/
def dayCountNO (store : List CalPost) (acct ymd : String) : Nat :=
  (store.filter (fun p => p.accountId == acct && p.ymd == ymd &&
    nonTerminal p && !p.override)).length

/-- Claim C2's invariant: at most 15 non-terminal posts per account and
date, not counting posts the caller explicitly created with
`override_spacing = true`. -/
def capInv (store : List CalPost) : Prop :=
  ∀ acct ymd, dayCountNO store acct ymd ≤ 15

theorem minute_mem_sameDayMins {store : List CalPost} {p : CalPost} (hp : p ∈ store)
    {ymd : String} (hymd : p.ymd = ymd) : p.minute ∈ sameDayMins store ymd none := by
  refine List.mem_map.mpr ⟨p, List.mem_filter.mpr ⟨hp, ?_⟩, rfl⟩
  simp [keepPost, hymd]

theorem minute_mem_sameDayMins_excl {store : List CalPost} {p : CalPost} (hp : p ∈ store)
    {ymd : String} (hymd : p.ymd = ymd) {i : Nat} (hne : p.id ≠ i) :
    p.minute ∈ sameDayMins store ymd (some i) := by
  refine List.mem_map.mpr ⟨p, List.mem_filter.mpr ⟨hp, ?_⟩, rfl⟩
  simp [keepPost, hymd, hne]

theorem editorCreate_conflict {store : List CalPost} {acct ymd : String} {minute : Int}
    {ov : Bool} {newId : Nat} {off : Int}
    (h : editorCreate store acct ymd minute ov newId = .spacingConflict off) :
    ov = false ∧ off ∈ sameDayMins store ymd none ∧ (off - minute).natAbs < 15 := by
  unfold editorCreate at h
  split at h
  · rename_i o hfind
    split at h
    · cases h
    · rename_i hov
      cases h
      have h1 := List.find?_some hfind
      have h2 := List.mem_of_find?_eq_some hfind
      refine ⟨by simpa using hov, mem_sortInts.mp h2, by simpa using h1⟩
  · cases h

/-- Appending a post preserves the spacing invariant when the new post
either carries the override flag or is ≥ 15 minutes from every same-day
post of the store. -/
theorem spacingInv_append {store : List CalPost} (hinv : spacingInv store) (newP : CalPost)
    (hnew : newP.override = true ∨
      ∀ q ∈ store, q.ymd = newP.ymd → 15 ≤ (q.minute - newP.minute).natAbs) :
    spacingInv (store ++ [newP]) := by
  intro p hp q hq hid hacct hymd hpn hqn hpo hqo
  rw [List.mem_append, List.mem_singleton] at hp hq
  rcases hp with hp | rfl <;> rcases hq with hq | rfl
  · exact hinv p hp q hq hid hacct hymd hpn hqn hpo hqo
  · rcases hnew with hov | hsp
    · rw [hov] at hqo; cases hqo
    · exact hsp p hp hymd
  · rcases hnew with hov | hsp
    · rw [hov] at hpo; cases hpo
    · have := hsp q hq hymd.symm
      omega
  · exact absurd rfl hid

theorem editorCreate_preserves {store : List CalPost} {acct ymd : String} {minute : Int}
    {ov : Bool} {newId : Nat} {store1 : List CalPost} (hinv : spacingInv store)
    (h : editorCreate store acct ymd minute ov newId = .created store1) :
    spacingInv store1 := by
  unfold editorCreate at h
  split at h
  · rename_i o hfind
    split at h
    · rename_i hov
      cases h
      exact spacingInv_append hinv _ (Or.inl hov)
    · cases h
  · rename_i hfind
    cases h
    refine spacingInv_append hinv _ ?_
    cases hov : ov with
    | true => exact Or.inl rfl
    | false =>
        refine Or.inr ?_
        intro q hq hymd
        have hmem : q.minute ∈ sortInts (sameDayMins store ymd none) :=
          mem_sortInts.mpr (minute_mem_sameDayMins hq hymd)
        have := List.find?_eq_none.mp hfind q.minute hmem
        simp only [decide_eq_true_eq] at this
        dsimp only
        omega

theorem movePost_conflict {store : List CalPost} {postId : Nat} {targetYmd : String}
    {others : List Int} (h : movePost store postId targetYmd = .spacingConflict others) :
    ∃ post ∈ store, post.id = postId ∧
      others = sortInts (sameDayMins store targetYmd (some post.id)) ∧
      ∃ t ∈ others, (t - post.minute).natAbs < 15 := by
  unfold movePost at h
  split at h
  · cases h
  · rename_i post hfind
    split at h
    · cases h
    · split at h
      · rename_i hany
        cases h
        have hmem := List.mem_of_find?_eq_some hfind
        have hid : post.id = postId := by simpa using List.find?_some hfind
        obtain ⟨t, ht, hlt⟩ := List.any_eq_true.mp hany
        exact ⟨post, hmem, hid, rfl, t, ht, by simpa using hlt⟩
      · cases h

theorem movePost_preserves {store : List CalPost} {postId : Nat} {targetYmd : String}
    {store2 : List CalPost} (hnd : (store.map (fun p => p.id)).Nodup)
    (hinv : spacingInv store)
    (h : movePost store postId targetYmd = .moved store2) : spacingInv store2 := by
  unfold movePost at h
  split at h
  · cases h
  · rename_i post hfind
    split at h
    · cases h
    · split at h
      · cases h
      · rename_i hany
        cases h
        have hpostmem := List.mem_of_find?_eq_some hfind
        have hpostid : post.id = postId := by simpa using List.find?_some hfind
        have hfar : ∀ q ∈ store, q.ymd = targetYmd → q.id ≠ post.id →
            15 ≤ (q.minute - post.minute).natAbs := by
          intro q hq hymd hid
          have hmem : q.minute ∈ sortInts (sameDayMins store targetYmd (some post.id)) :=
            mem_sortInts.mpr (minute_mem_sameDayMins_excl hq hymd hid)
          by_contra hcl
          exact hany (List.any_eq_true.mpr ⟨q.minute, hmem, by simpa using hcl⟩)
        have hinj : ∀ x ∈ store, ∀ y ∈ store, x.id = y.id → x = y := by
          intro x hx y hy hxy
          exact List.inj_on_of_nodup_map hnd hx hy hxy
        have hfeqn : ∀ r : CalPost, r.id ≠ postId →
            (if r.id == postId then { r with ymd := targetYmd } else r) = r := by
          intro r hr
          rw [if_neg (by simpa using hr)]
        have hfeqy : ∀ r : CalPost, r.id = postId →
            (if r.id == postId then { r with ymd := targetYmd } else r) =
              { r with ymd := targetYmd } := by
          intro r hr
          rw [if_pos (by simpa using hr)]
        intro p' hp' q' hq' hid hacct hymd hpn hqn hpo hqo
        obtain ⟨p, hp, rfl⟩ := List.mem_map.mp hp'
        obtain ⟨q, hq, rfl⟩ := List.mem_map.mp hq'
        by_cases hpi : p.id = postId <;> by_cases hqi : q.id = postId
        · have : p = q := hinj p hp q hq (hpi.trans hqi.symm)
          subst this
          exact absurd rfl hid
        · rw [hfeqy p hpi] at hid hacct hymd hpn hpo ⊢
          rw [hfeqn q hqi] at hid hacct hymd hqn hqo ⊢
          have hpp : p = post := hinj p hp post hpostmem (hpi.trans hpostid.symm)
          subst hpp
          dsimp only at hid hymd ⊢
          have := hfar q hq hymd.symm (fun hqe => hid (hqe.symm))
          omega
        · rw [hfeqn p hpi] at hid hacct hymd hpn hpo ⊢
          rw [hfeqy q hqi] at hid hacct hymd hqn hqo ⊢
          have hqq : q = post := hinj q hq post hpostmem (hqi.trans hpostid.symm)
          subst hqq
          dsimp only at hid hymd ⊢
          have := hfar p hp hymd hid
          omega
        · rw [hfeqn p hpi] at hid hacct hymd hpn hpo ⊢
          rw [hfeqn q hqi] at hid hacct hymd hqn hqo ⊢
          exact hinv p hp q hq hid hacct hymd hpn hqn hpo hqo

theorem length_filter_map (f : CalPost → CalPost) (P : CalPost → Bool) :
    ∀ store : List CalPost,
      ((store.map f).filter P).length = (store.filter (fun p => P (f p))).length := by
  intro store
  induction store with
  | nil => rfl
  | cons p rest ih =>
      simp only [List.map_cons, List.filter_cons]
      by_cases h : P (f p) = true
      · rw [if_pos h, if_pos h]
        simp [ih]
      · rw [if_neg h, if_neg h]
        exact ih

theorem length_filter_or_le (A B : CalPost → Bool) :
    ∀ store : List CalPost, (store.filter (fun p => A p || B p)).length ≤
      (store.filter A).length + (store.filter B).length := by
  intro store
  induction store with
  | nil => simp
  | cons p rest ih =>
      simp only [List.filter_cons]
      by_cases hA : A p = true <;> by_cases hB : B p = true <;>
        simp [hA, hB] <;> omega

theorem length_filter_mono {A B : CalPost → Bool} :
    ∀ {store : List CalPost}, (∀ p ∈ store, A p = true → B p = true) →
      (store.filter A).length ≤ (store.filter B).length := by
  intro store
  induction store with
  | nil => intro _; simp
  | cons p rest ih =>
      intro h
      simp only [List.filter_cons]
      have hrest := ih (fun q hq => h q (by simp [hq]))
      by_cases hA : A p = true
      · rw [if_pos hA, if_pos (h p (by simp) hA)]
        simpa using hrest
      · rw [if_neg hA]
        split
        · simp
          omega
        · exact hrest

theorem length_filter_id_le_one {postId : Nat} :
    ∀ {store : List CalPost}, (store.map (fun p => p.id)).Nodup →
      (store.filter (fun p => p.id == postId)).length ≤ 1 := by
  intro store
  induction store with
  | nil => intro _; simp
  | cons p rest ih =>
      intro hnd
      rw [List.map_cons, List.nodup_cons] at hnd
      simp only [List.filter_cons]
      by_cases hp : (p.id == postId) = true
      · rw [if_pos hp]
        have hnil : rest.filter (fun q => q.id == postId) = [] := by
          rw [List.filter_eq_nil_iff]
          intro q hq hqe
          refine hnd.1 (List.mem_map.mpr ⟨q, hq, ?_⟩)
          have h1 : p.id = postId := by simpa using hp
          have h2 : q.id = postId := by simpa using hqe
          omega
        simp [hnil]
      · rw [if_neg hp]
        exact ih hnd.2

theorem length_filter_filter (A B : CalPost → Bool) :
    ∀ store : List CalPost, ((store.filter A).filter B).length =
      (store.filter (fun p => B p && A p)).length := by
  intro store
  rw [List.filter_filter]

theorem calOnSaveCreate_refuses {store : List CalPost} {acct ymd : String} {minute : Int}
    {newId : Nat} (h : 15 ≤ dayTotal store ymd) :
    calOnSaveCreate store acct ymd minute newId = none := by
  unfold calOnSaveCreate
  rw [if_pos h]

theorem calOnSaveCreate_cap {store : List CalPost} {acct ymd : String} {minute : Int}
    {newId : Nat} {store1 : List CalPost} (hinv : capInv store)
    (h : calOnSaveCreate store acct ymd minute newId = some store1) :
    dayTotal store1 ymd ≤ 15 ∧ capInv store1 := by
  unfold calOnSaveCreate at h
  split at h
  · cases h
  · rename_i hcap
    simp only [Option.some.injEq] at h
    subst h
    have hcap' : dayTotal store ymd ≤ 14 := by omega
    constructor
    · unfold dayTotal at hcap' ⊢
      rw [List.filter_append, List.length_append]
      simp only [List.filter_cons, List.filter_nil]
      rw [if_pos (by simp)]
      simp
      omega
    · intro a y
      unfold dayCountNO
      rw [List.filter_append, List.length_append]
      by_cases hnew : ((⟨newId, acct, ymd, minute, "scheduled", false⟩ : CalPost).accountId == a
          && (⟨newId, acct, ymd, minute, "scheduled", false⟩ : CalPost).ymd == y
          && nonTerminal ⟨newId, acct, ymd, minute, "scheduled", false⟩
          && !(⟨newId, acct, ymd, minute, "scheduled", false⟩ : CalPost).override) = true
      · have hy : ymd = y := by
          simp only [Bool.and_eq_true, beq_iff_eq] at hnew
          exact hnew.1.1.2
        rw [← hy]
        have hle : (store.filter (fun p => p.accountId == a && p.ymd == ymd &&
            nonTerminal p && !p.override)).length ≤
            (store.filter (fun p => p.ymd == ymd)).length := by
          refine length_filter_mono ?_
          intro p _ hp
          simp only [Bool.and_eq_true] at hp
          exact hp.1.1.2
        have hone : (List.filter (fun p => p.accountId == a && p.ymd == ymd &&
            nonTerminal p && !p.override)
            [(⟨newId, acct, ymd, minute, "scheduled", false⟩ : CalPost)]).length ≤ 1 :=
          le_trans (List.length_filter_le _ _) (by simp)
        unfold dayTotal at hcap'
        omega
      · simp only [List.filter_cons, List.filter_nil]
        rw [if_neg hnew]
        simpa using hinv a y

theorem movePost_cap {store : List CalPost} {postId : Nat} {targetYmd : String}
    {store2 : List CalPost} (hnd : (store.map (fun p => p.id)).Nodup)
    (hinv : capInv store) (h : movePost store postId targetYmd = .moved store2) :
    capInv store2 := by
  unfold movePost at h
  split at h
  · cases h
  · rename_i post hfind
    split at h
    · cases h
    · rename_i hcap
      split at h
      · cases h
      · cases h
        have hpostid : post.id = postId := by simpa using List.find?_some hfind
        have hcap' : (store.filter (fun p =>
            p.ymd == targetYmd && p.id != post.id)).length ≤ 14 := by omega
        intro a y
        unfold dayCountNO
        rw [length_filter_map]
        by_cases hy : y = targetYmd
        · rw [hy]
          have hsplit : ∀ p ∈ store,
              ((if p.id == postId then { p with ymd := targetYmd } else p).accountId == a &&
               (if p.id == postId then { p with ymd := targetYmd } else p).ymd == targetYmd &&
               nonTerminal (if p.id == postId then { p with ymd := targetYmd } else p) &&
               !(if p.id == postId then { p with ymd := targetYmd } else p).override) = true →
              ((fun p => p.id == postId) p ||
               (fun p => p.ymd == targetYmd && p.id != post.id) p) = true := by
            intro p _ hp
            by_cases hpi : (p.id == postId) = true
            · simp [hpi]
            · rw [if_neg hpi] at hp
              simp only [Bool.and_eq_true] at hp
              simp only [Bool.or_eq_true, Bool.and_eq_true]
              refine Or.inr ⟨hp.1.1.2, ?_⟩
              have hne : p.id ≠ postId := by simpa using hpi
              simp only [bne_iff_ne, ne_eq, hpostid]
              exact hne
          calc (store.filter _).length ≤
              (store.filter (fun p => (fun p => p.id == postId) p ||
                (fun p => p.ymd == targetYmd && p.id != post.id) p)).length :=
                length_filter_mono hsplit
            _ ≤ (store.filter (fun p => p.id == postId)).length +
                (store.filter (fun p => p.ymd == targetYmd && p.id != post.id)).length :=
                length_filter_or_le _ _ store
            _ ≤ 1 + 14 := Nat.add_le_add (length_filter_id_le_one hnd) hcap'
            _ = 15 := rfl
        · have hsub : ∀ p ∈ store,
              ((if p.id == postId then { p with ymd := targetYmd } else p).accountId == a &&
               (if p.id == postId then { p with ymd := targetYmd } else p).ymd == y &&
               nonTerminal (if p.id == postId then { p with ymd := targetYmd } else p) &&
               !(if p.id == postId then { p with ymd := targetYmd } else p).override) = true →
              (p.accountId == a && p.ymd == y && nonTerminal p && !p.override) = true := by
            intro p _ hp
            by_cases hpi : (p.id == postId) = true
            · rw [if_pos hpi] at hp
              simp only [Bool.and_eq_true, beq_iff_eq] at hp
              exact absurd hp.1.1.2 (by simpa using Ne.symm hy)
            · rwa [if_neg hpi] at hp
          have := hinv a y
          unfold dayCountNO at this
          exact le_trans (length_filter_mono hsub) this

theorem multiMove_cap {store : List CalPost} {ids : List Nat} {targetYmd : String}
    {store3 : List CalPost} (hinv : capInv store)
    (h : multiMove store ids targetYmd = some store3) :
    dayTotal store3 targetYmd ≤ 15 ∧ capInv store3 := by
  unfold multiMove at h
  split at h
  · cases h
  · rename_i hguard
    simp only [Option.some.injEq] at h
    subst h
    have hguard' : (store.filter (fun p => p.ymd == targetYmd)).length +
        ((store.filter (fun p => ids.contains p.id)).filter
          (fun p => p.ymd != targetYmd)).length ≤ 15 := by omega
    rw [length_filter_filter] at hguard'
    have htot : dayTotal (store.map (fun p =>
        if ids.contains p.id then { p with ymd := targetYmd } else p)) targetYmd ≤ 15 := by
      unfold dayTotal
      rw [length_filter_map]
      have hsplit : ∀ p ∈ store,
          ((if ids.contains p.id then { p with ymd := targetYmd } else p).ymd == targetYmd) = true →
          ((fun p => (p.ymd != targetYmd) && ids.contains p.id) p ||
           (fun p => p.ymd == targetYmd) p) = true := by
        intro p _ hp
        simp only [Bool.or_eq_true, Bool.and_eq_true, bne_iff_ne, ne_eq, beq_iff_eq]
        by_cases hpi : (ids.contains p.id) = true
        · by_cases hpt : p.ymd = targetYmd
          · exact Or.inr hpt
          · exact Or.inl ⟨hpt, hpi⟩
        · rw [if_neg hpi] at hp
          exact Or.inr (by simpa using hp)
      calc (store.filter _).length ≤
          (store.filter (fun p => (fun p => (p.ymd != targetYmd) && ids.contains p.id) p ||
            (fun p => p.ymd == targetYmd) p)).length := length_filter_mono hsplit
        _ ≤ (store.filter (fun p => (p.ymd != targetYmd) && ids.contains p.id)).length +
            (store.filter (fun p => p.ymd == targetYmd)).length := length_filter_or_le _ _ store
        _ ≤ 15 := by omega
    refine ⟨htot, ?_⟩
    intro a y
    by_cases hy : y = targetYmd
    · rw [hy]
      have hmono : dayCountNO (store.map (fun p =>
          if ids.contains p.id then { p with ymd := targetYmd } else p)) a targetYmd ≤
          dayTotal (store.map (fun p =>
          if ids.contains p.id then { p with ymd := targetYmd } else p)) targetYmd := by
        unfold dayCountNO dayTotal
        refine length_filter_mono ?_
        intro p _ hp
        simp only [Bool.and_eq_true] at hp
        exact hp.1.1.2
      omega
    · unfold dayCountNO
      rw [length_filter_map]
      have hsub : ∀ p ∈ store,
          ((if ids.contains p.id then { p with ymd := targetYmd } else p).accountId == a &&
           (if ids.contains p.id then { p with ymd := targetYmd } else p).ymd == y &&
           nonTerminal (if ids.contains p.id then { p with ymd := targetYmd } else p) &&
           !(if ids.contains p.id then { p with ymd := targetYmd } else p).override) = true →
          (p.accountId == a && p.ymd == y && nonTerminal p && !p.override) = true := by
        intro p _ hp
        by_cases hpi : (ids.contains p.id) = true
        · rw [if_pos hpi] at hp
          simp only [Bool.and_eq_true, beq_iff_eq] at hp
          exact absurd hp.1.1.2 (by simpa using Ne.symm hy)
        · rwa [if_neg hpi] at hp
      have := hinv a y
      unfold dayCountNO at this
      exact le_trans (length_filter_mono hsub) this

/-- Claim C1: any two same-account, same-date, non-terminal posts neither of
which was created or saved with `override_spacing = true` are at least 15
minutes apart, and the guarded operations keep it that way: a create whose
time is within 15 minutes of a neighbor is rejected (without override)
naming the offending neighbor time; a successful create preserves the
invariant; a move whose time conflicts on the target date is rejected
carrying the neighbor times, one of which offends; and a successful move
preserves the invariant (ids assumed unique, as rows of the store). -/
theorem spacing_invariant_and_rejection
    (store : List CalPost) (acct ymd : String) (minute : Int) (ov : Bool)
    (newId postId : Nat) (targetYmd : String) (off : Int) (others : List Int)
    (store1 store2 : List CalPost) (hinv : spacingInv store) :
    (editorCreate store acct ymd minute ov newId = .spacingConflict off →
      ov = false ∧ off ∈ sameDayMins store ymd none ∧ (off - minute).natAbs < 15) ∧
    (editorCreate store acct ymd minute ov newId = .created store1 → spacingInv store1) ∧
    (movePost store postId targetYmd = .spacingConflict others →
      ∃ post ∈ store, post.id = postId ∧
        others = sortInts (sameDayMins store targetYmd (some post.id)) ∧
        ∃ t ∈ others, (t - post.minute).natAbs < 15) ∧
    ((store.map (fun p => p.id)).Nodup →
      movePost store postId targetYmd = .moved store2 → spacingInv store2) :=
  ⟨fun h => editorCreate_conflict h,
   fun h => editorCreate_preserves hinv h,
   fun h => movePost_conflict h,
   fun hnd h => movePost_preserves hnd hinv h⟩

/-- Witness for `spacing_invariant_and_rejection`: creating a post at 10:30
next to an existing 10:00 post (30 minutes apart) succeeds and the
resulting two-post store satisfies the spacing invariant. -/
theorem spacing_invariant_and_rejection_witness :
    spacingInv [⟨1, "7", "2025-06-01", 600, "scheduled", false⟩,
                ⟨2, "7", "2025-06-01", 630, "scheduled", false⟩] := by
  have h := spacing_invariant_and_rejection
    [⟨1, "7", "2025-06-01", 600, "scheduled", false⟩] "7" "2025-06-01" 630 false 2
    1 "2025-06-02" 0 []
    [⟨1, "7", "2025-06-01", 600, "scheduled", false⟩,
     ⟨2, "7", "2025-06-01", 630, "scheduled", false⟩] [] (by unfold spacingInv; decide)
  exact h.2.1 (by decide)

/-- Claim C2: at most 15 non-terminal posts per account and local date,
override posts excepted, and the guarded operations keep it that way: the
cap-guarded create refuses when the date already holds 15 posts and
otherwise keeps the date at ≤ 15; a successful single move (unique ids) and
a successful multi-move preserve the cap; the multi-move additionally
leaves the target date at ≤ 15 posts in total. -/
theorem daily_cap_invariant_and_refusal
    (store : List CalPost) (acct ymd : String) (minute : Int)
    (newId postId : Nat) (ids : List Nat) (targetYmd : String)
    (store1 store2 store3 : List CalPost) (hinv : capInv store) :
    (15 ≤ dayTotal store ymd → calOnSaveCreate store acct ymd minute newId = none) ∧
    (calOnSaveCreate store acct ymd minute newId = some store1 →
      dayTotal store1 ymd ≤ 15 ∧ capInv store1) ∧
    ((store.map (fun p => p.id)).Nodup →
      movePost store postId targetYmd = .moved store2 → capInv store2) ∧
    (multiMove store ids targetYmd = some store3 →
      dayTotal store3 targetYmd ≤ 15 ∧ capInv store3) :=
  ⟨fun h => calOnSaveCreate_refuses h,
   fun h => calOnSaveCreate_cap hinv h,
   fun hnd h => movePost_cap hnd hinv h,
   fun h => multiMove_cap hinv h⟩

/-- Witness for `daily_cap_invariant_and_refusal`: a create on a date with a
single existing post succeeds and leaves that date with 2 ≤ 15 posts, and
the resulting store satisfies the cap invariant. -/
theorem daily_cap_invariant_and_refusal_witness :
    dayTotal [⟨1, "7", "2025-06-01", 600, "scheduled", false⟩,
              ⟨2, "7", "2025-06-01", 630, "scheduled", false⟩] "2025-06-01" ≤ 15 ∧
    capInv [⟨1, "7", "2025-06-01", 600, "scheduled", false⟩,
            ⟨2, "7", "2025-06-01", 630, "scheduled", false⟩] := by
  have h := daily_cap_invariant_and_refusal
    [⟨1, "7", "2025-06-01", 600, "scheduled", false⟩] "7" "2025-06-01" 630 2 1 []
    "2025-06-02"
    [⟨1, "7", "2025-06-01", 600, "scheduled", false⟩,
     ⟨2, "7", "2025-06-01", 630, "scheduled", false⟩] [] [] ?_
  · exact h.2.1 (by decide)
  · intro a y
    exact le_trans (List.length_filter_le _ _) (by simp)

/-! ## Ranged posts hook (useRangedPosts.js lines 83-92, PostsClient.js 133-143) -/

/-- A post as returned by the server to `useRangedPosts`: the account id as
compared by `String(p.account_id) === String(accountId)`, and
`new Date(p.scheduled_at).getTime()` as an integer timestamp. -/
structure RangedPost where
  accountId : String
  scheduledAt : Int
deriving DecidableEq, Repr

/-- `isWithinRange` (useRangedPosts.js lines 6-9): inclusive on both ends. -/
def isWithinRange (t s e : Int) : Bool := s ≤ t && t ≤ e

/-- The final client-side filter of `useRangedPosts` (lines 86-90), applied
to whatever array the server returned. -/
def rangedFilter (arr : List RangedPost) (accountId : String) (startT endT : Int) :
    List RangedPost :=
  arr.filter (fun p => p.accountId == accountId && isWithinRange p.scheduledAt startT endT)

/-- Claim C9: the ranged-posts hook keeps exactly the server-returned posts
whose account id matches the requested one (as strings) and whose scheduled
time lies in the inclusive interval; everything else is filtered out even
if the server returned it. -/
theorem useRangedPosts_filter_spec (arr : List RangedPost) (accountId : String)
    (startT endT : Int) (p : RangedPost) :
    p ∈ rangedFilter arr accountId startT endT ↔
      p ∈ arr ∧ p.accountId = accountId ∧ startT ≤ p.scheduledAt ∧ p.scheduledAt ≤ endT := by
  simp [rangedFilter, isWithinRange, List.mem_filter, and_assoc]

/-- Witness for `useRangedPosts_filter_spec`: a matching post is kept and a
wrong-account post is dropped. -/
theorem useRangedPosts_filter_spec_witness :
    (⟨"7", 100⟩ : RangedPost) ∈ rangedFilter [⟨"7", 100⟩, ⟨"8", 100⟩] "7" 0 200 ∧
    (⟨"8", 100⟩ : RangedPost) ∉ rangedFilter [⟨"7", 100⟩, ⟨"8", 100⟩] "7" 0 200 := by
  constructor
  · exact (useRangedPosts_filter_spec [⟨"7", 100⟩, ⟨"8", 100⟩] "7" 0 200 ⟨"7", 100⟩).mpr
      (by constructor <;> simp)
  · intro hmem
    have := (useRangedPosts_filter_spec [⟨"7", 100⟩, ⟨"8", 100⟩] "7" 0 200 ⟨"8", 100⟩).mp hmem
    simp at this

/-! ## Delete-after (PostsClient.js lines 247-250, Calendar.jsx lines 377-387) -/

/-- A stored post row as the delete-after endpoint sees it. -/
structure StorePost where
  id : Nat
  accountId : Nat
  scheduledAt : Int
  status : String
deriving DecidableEq, Repr

/-- Modelled from the spec: the backend handler of
`POST /api/posts/delete_after` is not part of the source tree
(PostsClient.js only sends `{account_id, after}` to it); spec §4.1 defines
it as removing rows where `account_id = A AND scheduled_at > T AND status
IN (scheduled, leased)`. -/
def delete_after (store : List StorePost) (A : Nat) (T : Int) : List StorePost :=
  store.filter (fun p => !(p.accountId == A && T < p.scheduledAt &&
    (p.status == "scheduled" || p.status == "leased")))

/-- Claim C6: `delete_after A T` removes exactly the posts of account `A`
strictly after `T` in status `scheduled` or `leased`, and keeps every other
post unchanged (the survivors are a sublist of the store). -/
theorem delete_after_spec (store : List StorePost) (A : Nat) (T : Int) :
    (∀ p, p ∈ delete_after store A T ↔
      p ∈ store ∧ ¬(p.accountId = A ∧ T < p.scheduledAt ∧
        (p.status = "scheduled" ∨ p.status = "leased"))) ∧
    (delete_after store A T).Sublist store := by
  constructor
  · intro p
    simp only [delete_after, List.mem_filter, Bool.not_eq_true', Bool.and_eq_true,
      Bool.or_eq_true, beq_iff_eq, decide_eq_true_eq]
    constructor
    · rintro ⟨hmem, hcond⟩
      refine ⟨hmem, ?_⟩
      intro ⟨h1, h2, h3⟩
      rw [Bool.and_eq_false_iff, Bool.and_eq_false_iff, Bool.or_eq_false_iff] at hcond
      rcases hcond with (h | h) | h
      · exact absurd h1 (by simpa using h)
      · exact absurd h2 (by simpa using h)
      · rcases h3 with h3 | h3
        · exact absurd h3 (by simpa using h.1)
        · exact absurd h3 (by simpa using h.2)
    · rintro ⟨hmem, hcond⟩
      refine ⟨hmem, ?_⟩
      by_contra hb
      rw [Bool.not_eq_false, Bool.and_eq_true, Bool.and_eq_true, Bool.or_eq_true] at hb
      refine hcond ⟨by simpa using hb.1.1, by simpa using hb.1.2, ?_⟩
      rcases hb.2 with h | h
      · exact Or.inl (by simpa using h)
      · exact Or.inr (by simpa using h)
  · exact List.filter_sublist _

/-- Witness for `delete_after_spec`: a later `scheduled` post of the account
is removed; a `posted` one survives. -/
theorem delete_after_spec_witness :
    (⟨1, 7, 100, "posted"⟩ : StorePost) ∈ delete_after [⟨1, 7, 100, "posted"⟩,
      ⟨2, 7, 100, "scheduled"⟩] 7 50 ∧
    (⟨2, 7, 100, "scheduled"⟩ : StorePost) ∉ delete_after [⟨1, 7, 100, "posted"⟩,
      ⟨2, 7, 100, "scheduled"⟩] 7 50 := by
  have h := delete_after_spec [⟨1, 7, 100, "posted"⟩, ⟨2, 7, 100, "scheduled"⟩] 7 50
  constructor
  · exact (h.1 ⟨1, 7, 100, "posted"⟩).mpr (by refine ⟨by simp, ?_⟩; rintro ⟨-, -, h | h⟩ <;> simp_all)
  · intro hmem
    have := (h.1 ⟨2, 7, 100, "scheduled"⟩).mp hmem
    exact this.2 ⟨rfl, by decide, Or.inl rfl⟩

/-! ## Idempotent create (schema.sql lines 28-31, backend create handler) -/

/-- A post row reduced to the fields the idempotency contract speaks about. -/
structure IdemRow where
  id : Nat
  accountId : Nat
  clientRequestId : Option String
deriving DecidableEq, Repr

/-- The post table with its id sequence. -/
structure IdemStore where
  rows : List IdemRow
  nextId : Nat
deriving DecidableEq, Repr

/-- Outcome of a create call. -/
inductive CreateOutcome
  | created
  | idempotent_hit
deriving DecidableEq, Repr

/-- Modelled from the spec: the backend `POST /api/posts` handler is not in
the source tree (the dev mock of part_006 is not the authoritative store);
spec §4.1: "if `client_request_id` is provided and already exists for
`account_id`, return the existing row with the outcome `idempotent_hit`",
backed by the partial unique index `idx_posts_acc_clientreq` of
schema.sql. -/
def createPostIdem (st : IdemStore) (acct : Nat) (crid : Option String) :
    IdemStore × Nat × CreateOutcome :=
  match crid with
  | some c =>
      match st.rows.find? (fun r => r.accountId == acct && r.clientRequestId == some c) with
      | some r => (st, r.id, .idempotent_hit)
      | none =>
          (⟨st.rows ++ [⟨st.nextId, acct, some c⟩], st.nextId + 1⟩, st.nextId, .created)
  | none => (⟨st.rows ++ [⟨st.nextId, acct, crid⟩], st.nextId + 1⟩, st.nextId, .created)

/-- Claim C3: creating twice with the same `(account_id, client_request_id)`
starting from a store without that key leaves the store of the first call
untouched, returns the same post id from both calls, reports
`idempotent_hit` on the second call, and leaves exactly one row with that
key. -/
theorem find?_append_of_none {α : Type} {p : α → Bool} :
    ∀ {l1 : List α} (l2 : List α), l1.find? p = none → (l1 ++ l2).find? p = l2.find? p := by
  intro l1
  induction l1 with
  | nil => intro l2 _; rfl
  | cons a l ih =>
      intro l2 h
      cases hpa : p a with
      | true =>
          rw [List.find?_cons_of_pos _ hpa] at h
          cases h
      | false =>
          rw [List.find?_cons_of_neg _ (by simp [hpa])] at h
          rw [List.cons_append, List.find?_cons_of_neg _ (by simp [hpa])]
          exact ih l2 h

theorem create_idempotent (st : IdemStore) (acct : Nat) (c : String)
    (hfresh : ∀ r ∈ st.rows, ¬(r.accountId = acct ∧ r.clientRequestId = some c)) :
    ∀ st1 id1 o1, createPostIdem st acct (some c) = (st1, id1, o1) →
    ∀ st2 id2 o2, createPostIdem st1 acct (some c) = (st2, id2, o2) →
      id2 = id1 ∧ o2 = .idempotent_hit ∧ st2 = st1 ∧
      (st1.rows.filter (fun r => r.accountId == acct &&
        r.clientRequestId == some c)).length = 1 := by
  intro st1 id1 o1 h1 st2 id2 o2 h2
  have hnone : st.rows.find? (fun r => r.accountId == acct &&
      r.clientRequestId == some c) = none := by
    rw [List.find?_eq_none]
    intro r hr hc
    simp only [Bool.and_eq_true, beq_iff_eq] at hc
    exact hfresh r hr ⟨hc.1, hc.2⟩
  have hniln : st.rows.filter (fun r => r.accountId == acct &&
      r.clientRequestId == some c) = [] := by
    rw [List.filter_eq_nil_iff]
    intro r hr hc
    simp only [Bool.and_eq_true, beq_iff_eq] at hc
    exact hfresh r hr ⟨hc.1, hc.2⟩
  have hpredn : ((⟨st.nextId, acct, some c⟩ : IdemRow).accountId == acct &&
      (⟨st.nextId, acct, some c⟩ : IdemRow).clientRequestId == some c) = true := by
    simp
  simp only [createPostIdem, hnone] at h1
  have h1' := h1.symm
  simp only [Prod.mk.injEq] at h1'
  obtain ⟨rfl, rfl, rfl⟩ := h1'
  have hfind2 : ((st.rows ++ [(⟨st.nextId, acct, some c⟩ : IdemRow)]).find?
      (fun r => r.accountId == acct && r.clientRequestId == some c)) =
      some (⟨st.nextId, acct, some c⟩ : IdemRow) := by
    rw [find?_append_of_none _ hnone]
    exact List.find?_cons_of_pos _ hpredn
  simp only [createPostIdem, hfind2] at h2
  have h2' := h2.symm
  simp only [Prod.mk.injEq] at h2'
  obtain ⟨rfl, rfl, rfl⟩ := h2'
  refine ⟨rfl, rfl, rfl, ?_⟩
  rw [List.filter_append, hniln, List.nil_append]
  simp only [List.filter_cons, hpredn, if_pos rfl, List.filter_nil]
  rfl

/-- Witness for `create_idempotent` at the empty store: both calls return id
0, the second is an `idempotent_hit`, and one row holds the key. -/
theorem create_idempotent_witness :
    (0 : Nat) = 0 ∧ CreateOutcome.idempotent_hit = CreateOutcome.idempotent_hit ∧
    (⟨[⟨0, 7, some "abc"⟩], 1⟩ : IdemStore) = ⟨[⟨0, 7, some "abc"⟩], 1⟩ ∧
    ((⟨[⟨0, 7, some "abc"⟩], 1⟩ : IdemStore).rows.filter (fun r => r.accountId == 7 &&
      r.clientRequestId == some "abc")).length = 1 := by
  exact create_idempotent ⟨[], 0⟩ 7 "abc" (by simp)
    ⟨[⟨0, 7, some "abc"⟩], 1⟩ 0 .created rfl
    ⟨[⟨0, 7, some "abc"⟩], 1⟩ 0 .idempotent_hit rfl

/-! ## Edit/replace guards (Calendar.jsx lines 218-227, ReplacePostDialog.jsx
lines 153-188) -/

/-- A post as the replace dialog sees it. -/
structure EPost where
  id : Nat
  status : String
  scheduledAt : Int
  mediaUrl : String
  caption : Option String
deriving DecidableEq, Repr

/-- `String(p.status).toLowerCase() === "scheduled" &&
new Date(p.scheduled_at).getTime() > nowTs` (statuses are stored lowercase,
so `toLowerCase()` is the identity on them). -/
def isFutureScheduled (p : EPost) (now : Int) : Bool :=
  p.status == "scheduled" && now < p.scheduledAt

/-- `urls.length === 1 ? urls[0] : (urls[i] || urls[urls.length - 1])`
(URLs are non-empty strings, already filtered by `filter(Boolean)`). -/
def pickUrl (urls : List String) (i : Nat) : String :=
  if urls.length == 1 then urls.headD ""
  else urls.getD i (urls.getLastD "")

/-- The update `doReplace` applies to one post: the payload
`cap ? {media_url: url, caption: cap} : {media_url: url}` flows through
`updatePost` into `mapEditorPayloadToPostCreate` (PostsClient.js line 98),
which always emits `caption: input.caption ?? ""` — on the PUT body, and on
the delete-then-create fallback too, where `candidate.caption ?? original.caption`
keeps the candidate's `""` rather than the original.  So the row's new
caption is the extracted caption when there is one and the empty string
otherwise, i.e. `replacedCaption url` either way. -/
def applyReplace (p : EPost) (url : String) : EPost :=
  { p with mediaUrl := url, caption := some (replacedCaption url) }

/-- Counterexample to claim C5 as stated, at the concrete input
`"/*****cap*****/pic.jpg"`.  First, the path contains the pattern
`*****cap*****` (with `"cap"` star-free and of length 3), yet the
extraction function returns `none`: the pattern sits in a directory
component, not in the final path segment that `.split(/[\\/]/).pop()`
keeps.  Second, with no caption extracted the replace does *not* leave the
existing caption unchanged: the update built by
`mapEditorPayloadToPostCreate` carries `caption: input.caption ?? ""`, so a
post whose stored caption is `"hello"` ends up with caption `""`. -/
theorem extractCaptionFromString_path_pattern_counterexample :
    (("/*****cap*****/pic.jpg" : String).data =
      ("/" : String).data ++ stars5 ++ ("cap" : String).data ++ stars5 ++
        ("/pic.jpg" : String).data ∧
    (∀ c ∈ ("cap" : String).data, c ≠ '*') ∧
    1 ≤ ("cap" : String).data.length ∧ ("cap" : String).data.length ≤ 200 ∧
    extractCaptionFromString "/*****cap*****/pic.jpg" = none) ∧
    applyReplace ⟨1, "scheduled", 100, "a.jpg", some "hello"⟩
        "/*****cap*****/pic.jpg" =
      ⟨1, "scheduled", 100, "/*****cap*****/pic.jpg", some ""⟩ := by
  decide

/-- `doReplace` (ReplacePostDialog.jsx lines 153-188): every selected post
must be future `scheduled` — the check throws before any update — then each
selected post is updated with its URL by position in the selection. -/
def doReplace (store : List EPost) (targets : List Nat) (urls : List String) (now : Int) :
    Except String (List EPost) :=
  if (store.filter (fun p => targets.contains p.id)).any
      (fun p => !(isFutureScheduled p now)) then
    .error "Only future scheduled posts can be replaced."
  else if urls.isEmpty then .error "Please provide at least one media URL."
  else
    .ok (store.map (fun p =>
      match (store.filter (fun q => targets.contains q.id)).findIdx?
          (fun q => q.id == p.id) with
      | some i => applyReplace p (pickUrl urls i)
      | none => p))

/-- Modelled from the spec: the backend `PUT /api/posts/:id` handler that
enforces the edit guard is not in the source tree (PostsClient.js
`updatePost` only issues the request); spec §4.5: "only future `scheduled`
posts may be edited", rejecting others with a `Conflict`. -/
def editPost (store : List EPost) (postId : Nat) (newCaption : String) (now : Int) :
    Except String (List EPost) :=
  match store.find? (fun p => p.id == postId) with
  | none => .error "NotFound"
  | some p =>
      if isFutureScheduled p now then
        .ok (store.map (fun q =>
          if q.id == postId then { q with caption := some newCaption } else q))
      else .error "Conflict"

/-- Claim C7: replace succeeds only when every selected post is future
`scheduled`, and rejects (before touching any row) when one is not; edit
succeeds only on a future `scheduled` post and rejects others with a
`Conflict`, leaving the row unchanged. -/
theorem edit_replace_only_future_scheduled (store : List EPost) (targets : List Nat)
    (urls : List String) (postId : Nat) (newCaption : String) (now : Int) :
    (∀ store1, doReplace store targets urls now = .ok store1 →
      ∀ p ∈ store, targets.contains p.id = true → isFutureScheduled p now = true) ∧
    ((∃ p ∈ store, targets.contains p.id = true ∧ isFutureScheduled p now = false) →
      doReplace store targets urls now = .error
        "Only future scheduled posts can be replaced.") ∧
    (∀ store2, editPost store postId newCaption now = .ok store2 →
      ∃ p ∈ store, p.id = postId ∧ isFutureScheduled p now = true) ∧
    (∀ p, store.find? (fun q => q.id == postId) = some p →
      isFutureScheduled p now = false →
      editPost store postId newCaption now = .error "Conflict") := by
  refine ⟨?_, ?_, ?_, ?_⟩
  · intro store1 h p hp htp
    unfold doReplace at h
    split at h
    · cases h
    · rename_i hany
      by_contra hfs
      have hfs2 : isFutureScheduled p now = false := by
        cases hb : isFutureScheduled p now
        · rfl
        · exact absurd hb hfs
      exact hany (List.any_eq_true.mpr ⟨p, List.mem_filter.mpr ⟨hp, htp⟩, by simp [hfs2]⟩)
  · rintro ⟨p, hp, htp, hfs⟩
    unfold doReplace
    rw [if_pos]
    exact List.any_eq_true.mpr ⟨p, List.mem_filter.mpr ⟨hp, htp⟩, by simp [hfs]⟩
  · intro store2 h
    unfold editPost at h
    split at h
    · cases h
    · rename_i p hfind
      split at h
      · rename_i hfs
        exact ⟨p, List.mem_of_find?_eq_some hfind, by simpa using List.find?_some hfind, hfs⟩
      · cases h
  · intro p hfind hfs
    unfold editPost
    rw [hfind]
    simp [hfs]

/-- Witness for `edit_replace_only_future_scheduled`: replacing a selection
containing a past post is rejected with the exact error message. -/
theorem edit_replace_only_future_scheduled_witness :
    doReplace [⟨1, "scheduled", 50, "a.jpg", none⟩] [1] ["b.jpg"] 100 =
      .error "Only future scheduled posts can be replaced." := by
  exact (edit_replace_only_future_scheduled [⟨1, "scheduled", 50, "a.jpg", none⟩]
    [1] ["b.jpg"] 1 "c" 100).2.1 ⟨⟨1, "scheduled", 50, "a.jpg", none⟩, by simp, by decide, by decide⟩

/-! ## Publish state machine (spec §4.7; the frontend wrappers are
instagram.js lines 1-49) -/

/-- The persisted post statuses of the publish state machine. -/
inductive PStatus
  | scheduled
  | leased
  | publishing
  | posted
  | failed
  | cancelled
deriving DecidableEq, Repr

/-- Modelled from the spec: the worker driving the publish state machine is
not in the source tree (instagram.js only wraps the platform HTTP calls
`create_container`, `container_status`, `publish`); spec §4.7 gives the
transitions, with `container_id` persisted in `publish_result` and the
idempotent resume after a crash.  `createCalls` and `publishCalls` count
the external `CreateContainer` and `Publish` calls made for the post. -/
structure FSMState where
  status : PStatus
  containerId : Option Nat
  createCalls : Nat
  publishCalls : Nat
  retryCount : Nat
deriving DecidableEq, Repr

/-- A freshly scheduled post. -/
def fsmInit : FSMState := ⟨.scheduled, none, 0, 0, 0⟩

/-- The transitions of spec §4.7.  `crash` is the lease-expiry path (any
non-terminal state back to `scheduled`, `retry_count` incremented, the
persisted `publish_result` kept); `resumePoll` is the idempotent resume:
a leased post with a stored `container_id` goes straight to polling and
does not call `CreateContainer` again; `pollFailRetry` is a retryable
`ERROR`/`EXPIRED` classification, which abandons the dead container. -/
inductive PubStep : FSMState → FSMState → Prop
  | lease (s : FSMState) : s.status = .scheduled →
      PubStep s { s with status := .leased }
  | createContainer (s : FSMState) (cid : Nat) : s.status = .leased →
      s.containerId = none →
      PubStep s { s with status := .publishing, containerId := some cid,
                         createCalls := s.createCalls + 1 }
  | resumePoll (s : FSMState) (cid : Nat) : s.status = .leased →
      s.containerId = some cid →
      PubStep s { s with status := .publishing }
  | publishOk (s : FSMState) : s.status = .publishing → s.containerId.isSome = true →
      PubStep s { s with status := .posted, publishCalls := s.publishCalls + 1 }
  | pollFailTerminal (s : FSMState) : s.status = .publishing →
      PubStep s { s with status := .failed }
  | pollFailRetry (s : FSMState) : s.status = .publishing →
      PubStep s { s with status := .scheduled, containerId := none,
                         retryCount := s.retryCount + 1 }
  | cancel (s : FSMState) : s.status = .leased ∨ s.status = .publishing →
      PubStep s { s with status := .cancelled }
  | crash (s : FSMState) : s.status = .leased ∨ s.status = .publishing →
      PubStep s { s with status := .scheduled, retryCount := s.retryCount + 1 }

/-- The states a post can reach from `fsmInit` under any interleaving of
leases, crashes and platform outcomes. -/
def PubReachable (s : FSMState) : Prop := Relation.ReflTransGen PubStep fsmInit s

theorem pubStep_publish_inv {s t : FSMState} (h : PubStep s t)
    (hinv : s.publishCalls = 0 ∨ (s.publishCalls = 1 ∧ s.status = .posted)) :
    t.publishCalls = 0 ∨ (t.publishCalls = 1 ∧ t.status = .posted) := by
  cases h <;> rcases hinv with h0 | ⟨h1, hp⟩ <;> simp_all

/-- Claim C4: along every reachable execution the platform `Publish` call
happens at most once; and once a `container_id` is persisted, no step makes
another `CreateContainer` call, and the resume of a leased post goes to
polling with the stored `container_id` unchanged. -/
theorem publish_at_most_once (s : FSMState) (h : PubReachable s) :
    s.publishCalls ≤ 1 ∧
    (∀ t, PubStep s t → s.containerId.isSome = true → t.createCalls = s.createCalls) ∧
    (∀ c t, s.status = .leased → s.containerId = some c → PubStep s t →
      t.status = .publishing → t.containerId = some c) := by
  refine ⟨?_, ?_, ?_⟩
  · have hinv : s.publishCalls = 0 ∨ (s.publishCalls = 1 ∧ s.status = .posted) := by
      unfold PubReachable at h
      induction h with
      | refl => exact Or.inl rfl
      | tail hstep hlast ih => exact pubStep_publish_inv hlast ih
    rcases hinv with h0 | ⟨h1, _⟩ <;> omega
  · intro t hstep hsome
    cases hstep <;> simp_all
  · intro c t hleased hcid hstep hpub
    cases hstep <;> simp_all

/-- Witness for `publish_at_most_once` at the initial state. -/
theorem publish_at_most_once_witness :
    fsmInit.publishCalls ≤ 1 := by
  exact (publish_at_most_once fsmInit Relation.ReflTransGen.refl).1

/-! ## Batch planner preflight/commit (spec §4.4; the UI driver is
BatchScheduleWizard.jsx `onCommit`, part_009 lines 260-304) -/

/-- One repair pass of spec §4.4 step 3 over an already sorted tail: each
later point is shifted forward to keep at least `spacing` from its
predecessor. -/
def repairGo (spacing : Int) : Int → List Int → List Int
  | _, [] => []
  | prev, t :: rest => (max t (prev + spacing)) :: repairGo spacing (max t (prev + spacing)) rest

/-- Snap-and-repair of a sorted offset list. -/
def repairTimes (spacing : Int) : List Int → List Int
  | [] => []
  | t :: rest => t :: repairGo spacing t rest

/-- Modelled from the spec: the backend batch preflight/commit handlers are
not in the source tree (the wizard only posts to `/api/posts/batch_preflight`
and `/api/posts/batch/commit`); spec §4.4: per local date the weekly-plan
count clamped to [0, 15], sampled minute offsets (deterministic given the
request seed, abstracted here as the function `sample`), sorted, repaired
to the minimum spacing, with points repaired past `random_end` dropped. -/
structure BatchReq where
  days : List Nat
  weekday : Nat → Nat
  weekly_plan : Nat → Nat
  sample : Nat → Nat → List Int
  min_spacing_minutes : Int
  random_end : Int
  media_urls : List String

/-- The slots planned for one local date. -/
def planDaySlots (X : BatchReq) (d : Nat) : List Int :=
  (repairTimes X.min_spacing_minutes
    (sortInts (X.sample d (min (X.weekly_plan (X.weekday d)) 15)))).filter
    (fun t => t ≤ X.random_end)

/-- `preflight(X).slots`: the concatenation of every day's planned slots. -/
def preflightSlots (X : BatchReq) : List (Nat × Int) :=
  (X.days.map (fun d => (planDaySlots X d).map (fun t => (d, t)))).flatten

/-- A committed batch post row. -/
structure BatchPost where
  day : Nat
  minute : Int
  mediaUrl : String
deriving DecidableEq, Repr

/-- Modelled from the spec: `commit` inserts one row per preflight slot,
pairing slots with media URLs in order; with insufficient media the request
reports `insufficient_media` instead of inserting. -/
def commitBatch (X : BatchReq) (store : List BatchPost) : Option (List BatchPost) :=
  if (preflightSlots X).length ≤ X.media_urls.length then
    some (store ++ ((preflightSlots X).zip (X.media_urls.take (preflightSlots X).length)).map
      (fun s => ⟨s.1.1, s.1.2, s.2⟩))
  else none

/-- Claim C8: when enough media URLs are supplied and nothing else touches
the store, `commit (preflight X)` creates exactly `(preflight X).slots.length`
new post rows. -/
theorem commit_creates_preflight_slots (X : BatchReq) (store : List BatchPost)
    (hmedia : (preflightSlots X).length ≤ X.media_urls.length) :
    ∃ store1, commitBatch X store = some store1 ∧
      store1.length = store.length + (preflightSlots X).length := by
  refine ⟨store ++ ((preflightSlots X).zip
      (X.media_urls.take (preflightSlots X).length)).map (fun s => ⟨s.1.1, s.1.2, s.2⟩),
    ?_, ?_⟩
  · unfold commitBatch
    rw [if_pos hmedia]
  · rw [List.length_append, List.length_map, List.length_zip, List.length_take]
    omega

/-- Witness for `commit_creates_preflight_slots`: a one-day request with two
sampled offsets and two media URLs commits exactly two rows into the empty
store. -/
theorem commit_creates_preflight_slots_witness :
    ∃ store1, commitBatch ⟨[0], (fun _ => 0), (fun _ => 2), (fun _ _ => [540, 560]),
      15, 1439, ["a.jpg", "b.jpg"]⟩ [] = some store1 ∧
      store1.length = ([] : List BatchPost).length +
        (preflightSlots ⟨[0], (fun _ => 0), (fun _ => 2), (fun _ _ => [540, 560]),
          15, 1439, ["a.jpg", "b.jpg"]⟩).length := by
  exact commit_creates_preflight_slots _ [] (by decide)

end Scheduler
